import Mathlib

/-!
Verification development for the single-node blockchain simulator
(powerpool-finance/ganache-core): a shallow embedding of

* the checkpoint/snapshot subsystem (spec sections 4.1 to 4.3); its
  implementation is not among the provided sources (only its test file,
  `src/unnamed/part_000`, is), so it is modelled from the spec; and
* the Filecoin-flavour `Blockchain` class
  (`src/src/chains/filecoin/src/blockchain.ts`), embedded from the source.
-/

namespace SnapshotModel

/-- Modelled from the spec: StorageCache (section 4.1; the cache sources are
absent from the provided files).  A write-back cache layer (`cache`) over a
durable backing store (`backing`); keys and values are numbers. -/
structure StorageCache where
  backing : Nat → Option Nat
  cache : Nat → Option Nat

/-- The logical content a `read` observes: cache tier first, then backing. -/
def StorageCache.lookup (s : StorageCache) (k : Nat) : Option Nat :=
  match s.cache k with
  | some v => some v
  | none => s.backing k

/-- Modelled from the spec: `read(key)` returns the value-or-absent and, on a
cache miss served by the backing store, promotes the entry into the cache. -/
def StorageCache.read (s : StorageCache) (k : Nat) : Option Nat × StorageCache :=
  match s.cache k with
  | some v => (some v, s)
  | none =>
    match s.backing k with
    | some v => (some v, { s with cache := fun q => if q = k then some v else s.cache q })
    | none => (none, s)

/-- Modelled from the spec: `write(key, value)` updates the cache tier. -/
def StorageCache.write (s : StorageCache) (k v : Nat) : StorageCache :=
  { s with cache := fun q => if q = k then some v else s.cache q }

/-- Modelled from the spec: `snapshotHandle()` captures a reference sufficient
to restore the cache's exact logical contents at capture time. -/
def StorageCache.snapshotHandle (s : StorageCache) : Nat → Option Nat :=
  fun k => s.lookup k

/-- Modelled from the spec: `restore(handle)` makes subsequent reads behave as
if every write after the capture never happened; the in-memory tier is
invalidated wholesale (the documented regression is a cache that was *not*
cleared). -/
def StorageCache.restore (h : Nat → Option Nat) : StorageCache :=
  { backing := h, cache := fun _ => none }

/-- One receipt per accepted state-changing operation (spec section 3). -/
structure Receipt where
  success : Bool
  ret : Nat
deriving DecidableEq

/-- A committed block: the receipts of the operations it contains. -/
structure Blk where
  recs : List (Nat × Receipt)
deriving DecidableEq

/-- Dependent-entity lifecycle states (spec section 4.5). -/
inductive EState
  | proposed
  | validating
  | staged
  | active
  | failed
deriving DecidableEq

/-- Modelled from the spec: one successful advancement step of the
dependent-entity state machine; terminal states absorb. -/
def EState.adv : EState → EState
  | .proposed => .validating
  | .validating => .staged
  | .staged => .active
  | .active => .active
  | .failed => .failed

/-- A checkpoint (spec section 3): monotone id, captured chain length, a
storage-restore handle, the dependent-entity registry at capture time, and
its Active/Reverted status. -/
structure Checkpoint where
  id : Nat
  chainLength : Nat
  handle : Nat → Option Nat
  entities : List (Nat × EState)
  reverted : Bool

/-- The whole revertible system: chain of blocks with receipts, the storage
cache, the dependent-entity registry, and the checkpoint stack. -/
structure Sys where
  chain : List Blk
  store : StorageCache
  entities : List (Nat × EState)
  cps : List Checkpoint
  nextId : Nat

/-- The initial system: genesis only (no receipts), empty storage, no
checkpoints; ids start at 1 (spec section 4.3). -/
def initSys : Sys :=
  { chain := []
    store := { backing := fun _ => none, cache := fun _ => none }
    entities := []
    cps := []
    nextId := 1 }

/-- Modelled from the spec: `snapshot()` allocates the next id (strictly
increasing, never reused), records the chain length, the storage handle and
the entity registry, marks the checkpoint Active and returns the id. -/
def snapshot (s : Sys) : Nat × Sys :=
  (s.nextId,
   { s with
      cps := ⟨s.nextId, s.chain.length, s.store.snapshotHandle, s.entities, false⟩ :: s.cps
      nextId := s.nextId + 1 })

/-- Marks a checkpoint Reverted when its id is at least `n` (cascade). -/
def markFrom (n : Nat) (c : Checkpoint) : Checkpoint :=
  if n ≤ c.id then { c with reverted := true } else c

/-- Modelled from the spec: `revert(id)` fails closed with `false` (never
throwing) when the id matches no checkpoint ever created or the checkpoint is
already Reverted; on success it marks the target and every later checkpoint
Reverted, truncates the chain to the captured length, restores the storage
cache from the handle and the entity registry from the capture, and returns
`true`. -/
def revert (j : Int) (s : Sys) : Bool × Sys :=
  match s.cps.find? (fun c => ((c.id : Int) == j)) with
  | none => (false, s)
  | some c =>
    if c.reverted then (false, s)
    else
      (true,
       { s with
          cps := s.cps.map (markFrom c.id)
          chain := s.chain.take c.chainLength
          store := StorageCache.restore c.handle
          entities := c.entities })

/-- Repeated `revert` calls on the same id: `revertRepeat j` performs the call
`j + 1` times, threading the state. -/
def revertRepeat : Nat → Int → Sys → Bool × Sys
  | 0, n, s => revert n s
  | j + 1, n, s => revert n (revertRepeat j n s).2

/-- The operations a caller may perform between a snapshot and its revert:
submitting a state-changing operation (which commits one block carrying its
receipt, applies its storage writes and advances every pending entity),
registering a dependent entity, and a cache-populating storage read. -/
inductive Op
  | submit (ref : Nat) (success : Bool) (ret : Nat) (writes : List (Nat × Nat))
  | register (eid : Nat)
  | read (k : Nat)

/-- One step of the system under an operation (spec sections 4.2, 4.4, 4.5). -/
def applyOp : Op → Sys → Sys
  | .submit ref success ret writes, s =>
    { s with
        chain := s.chain ++ [⟨[(ref, ⟨success, ret⟩)]⟩]
        store := writes.foldl (fun st kv => st.write kv.1 kv.2) s.store
        entities := s.entities.map (fun e => (e.1, e.2.adv)) }
  | .register eid, s => { s with entities := s.entities ++ [(eid, .validating)] }
  | .read k, s => { s with store := (s.store.read k).2 }

/-- A sequence of operations applied in order. -/
def applyOps (ops : List Op) (s : Sys) : Sys :=
  ops.foldl (fun st o => applyOp o st) s

/-- `getReceipt`: receipt lookup over the committed chain; absent once the
owning block has been discarded (spec section 4.2). -/
def getReceipt (s : Sys) (ref : Nat) : Option Receipt :=
  s.chain.findSome? (fun b => b.recs.lookup ref)

/-- An account/storage read as the caller observes it. -/
def readVal (s : Sys) (k : Nat) : Option Nat :=
  s.store.lookup k

/-- Observable equivalence of two system states: same chain (hence same
receipts), same entity registry, same storage reads at every key. -/
def ObsEq (s t : Sys) : Prop :=
  s.chain = t.chain ∧ s.entities = t.entities ∧ ∀ k, readVal s k = readVal t k

/-- Checkpoint ids already issued stay below the id counter. -/
def WfSys (s : Sys) : Prop :=
  ∀ c ∈ s.cps, c.id < s.nextId

/-- The RPC-level value a caller may pass as a revert identifier.  Modelled
from the spec (section 4.3 validation boundary, section 7 taxonomy) and from
the expectations of the test file `src/unnamed/part_000`: objects, booleans
and non-finite or non-integral numbers are structurally malformed; null and
undefined are missing identifiers; every value losslessly interpretable as an
integer (including negative ones and buffer-encoded ones) decodes to it. -/
inductive RpcId
  | obj
  | boolT
  | boolF
  | nullV
  | undef
  | intVal (n : Int)
  | fracNum
  | infPos
  | infNeg

/-- The two boundary-rejection signals (spec section 7). -/
inductive RpcErr
  | encoding
  | usage
deriving DecidableEq

/-- Modelled from the spec: the protocol-boundary decoding of a revert
identifier — malformed shapes are an encoding failure, missing values a usage
failure, integers flow through. -/
def decodeId : RpcId → Except RpcErr Int
  | .intVal n => .ok n
  | .nullV => .error .usage
  | .undef => .error .usage
  | .obj => .error .encoding
  | .boolT => .error .encoding
  | .boolF => .error .encoding
  | .fracNum => .error .encoding
  | .infPos => .error .encoding
  | .infNeg => .error .encoding

/-- Modelled from the spec: the `evm_revert` entry point — decode at the
boundary, and only on success call `revert`. -/
def evmRevert (v : RpcId) (s : Sys) : Except RpcErr (Bool × Sys) :=
  match decodeId v with
  | .error e => .error e
  | .ok n => .ok (revert n s)

end SnapshotModel

namespace FilecoinChain

/-- Deal lifecycle states.  `dealstates.ts` is absent from the provided
sources; modelled from the spec (section 4.5): Proposed, Validating, Staged,
Active, with Failed absorbing. -/
inductive DealState
  | proposed
  | validating
  | staged
  | active
  | failed
deriving DecidableEq

/-- Modelled from the spec: `Deal.advanceState` moves one successful step of
the state machine per produced block (section 4.5); the `automining` argument
the source passes does not change the step. -/
def DealState.advanceState : DealState → DealState
  | .proposed => .validating
  | .validating => .staged
  | .staged => .active
  | .active => .active
  | .failed => .failed

/-- Number of advancement steps from a state to `active` along the successful
path. -/
def DealState.stepsToActive : DealState → Nat
  | .proposed => 3
  | .validating => 2
  | .staged => 1
  | .active => 0
  | .failed => 0

/-- A block (`things/block.ts` is absent; fields from the constructor calls in
`blockchain.ts` and the spec's data model): the miner and the parent CIDs.
CIDs are determinised as numbers drawn from a counter. -/
structure Block where
  miner : Nat
  parents : List Nat
deriving DecidableEq

/-- A tipset (`things/tipset.ts` is absent; fields from the constructor calls
in `blockchain.ts` and the spec): its own CIDs, its blocks, its height. -/
structure Tipset where
  cids : List Nat
  blocks : List Block
  height : Nat
deriving DecidableEq

/-- A storage deal, reduced to the fields the embedded operations read:
its id, its proposal CID and its lifecycle state. -/
structure Deal where
  dealId : Nat
  proposalCid : Nat
  state : DealState
deriving DecidableEq

/-- `Partial<BlockchainOptions>`: each option may be absent. -/
structure BOptions where
  automining : Option Bool
  blockTime : Option Nat
  ipfsPort : Option Nat
deriving DecidableEq

/-- The mutable state of the `Blockchain` class.  `startupRan` records whether
the one-shot asynchronous startup callback (the `setTimeout` body) has run;
`readyEmits` counts emissions of the "ready" event; `nextCid` determinises
random CID generation. -/
structure BState where
  tipsets : List Tipset
  deals : List Deal
  inProcessDeals : List Nat
  automining : Bool
  blockTime : Nat
  ipfsPort : Nat
  ipfsServer : Option Bool
  miningTimeout : Bool
  ready : Bool
  startupRan : Bool
  readyEmits : Nat
  nextCid : Nat
deriving DecidableEq

/-- Fallback tipset for out-of-bounds array access (JS `undefined`). -/
def defaultTipset : Tipset := ⟨[], [], 0⟩

/-- The synchronous part of the constructor: assign options, force
`automining` off when `blockTime > 0`, create the genesis tipset at height 0,
leave the readiness flag false and the sidecar unassigned. -/
def construct (o : BOptions) : BState :=
  let blockTime := o.blockTime.getD 0
  let automining := if 0 < blockTime then false else o.automining.getD true
  { tipsets := [{ cids := [0], blocks := [{ miner := 0, parents := [] }], height := 0 }]
    deals := []
    inProcessDeals := []
    automining := automining
    blockTime := blockTime
    ipfsPort := o.ipfsPort.getD 5001
    ipfsServer := none
    miningTimeout := false
    ready := false
    startupRan := false
    readyEmits := 0
    nextCid := 1 }

/-- The asynchronous startup callback (the `setTimeout` body, which the
runtime fires at most once): create and start the IPFS server, arm the
interval miner when configured, set the readiness flag and emit "ready". -/
def startupStep (st : BState) : BState :=
  if st.startupRan then st
  else
    { st with
        ipfsServer := some true
        miningTimeout := !st.automining && st.blockTime ≠ 0
        ready := true
        startupRan := true
        readyEmits := st.readyEmits + 1 }

/-- How the `stop()` call ends. -/
inductive StopResult
  | ok
  | typeError
deriving DecidableEq

/-- `stop()`: `clearInterval(this.miningTimeout)` always runs; then
`this.ipfsServer.stop()` — a property access on `undefined` (a TypeError)
when the startup callback has not yet assigned the server. -/
def stop (st : BState) : StopResult × BState :=
  let st1 := { st with miningTimeout := false }
  match st1.ipfsServer with
  | none => (.typeError, st1)
  | some _ => (.ok, { st1 with ipfsServer := some false })

/-- How `waitForReady()` behaves for the caller. -/
inductive WaitBehavior
  | immediate
  | subscribed
deriving DecidableEq

/-- `waitForReady()`: resolve at once when the flag is set, otherwise
subscribe to the "ready" event. -/
def waitForReady (st : BState) : WaitBehavior :=
  if st.ready then .immediate else .subscribed

/-- `genesisTipset()`: `this.tipsets[0]`. -/
def genesisTipset (st : BState) : Tipset :=
  st.tipsets.getD 0 defaultTipset

/-- `latestTipset()`: `this.tipsets[this.tipsets.length - 1]`. -/
def latestTipset (st : BState) : Tipset :=
  st.tipsets.getD (st.tipsets.length - 1) defaultTipset

/-- The state of the deal with the given id (deals are looked up by id, the
model of JS object identity); a missing id answers the absorbing state. -/
def stateIn (deals : List Deal) (did : Nat) : DealState :=
  match deals.find? (fun d => d.dealId == did) with
  | some d => d.state
  | none => .failed

/-- `deal.advanceState(...)` through the deals list: only the matching deal's
state moves. -/
def advanceDeal (deals : List Deal) (did : Nat) : List Deal :=
  deals.map fun d => if d.dealId == did then { d with state := d.state.advanceState } else d

/-- The `for (const deal of this.inProcessDeals)` loop of `mineTipset`, with
JS array-iterator semantics: the iterator holds a bare index into the live
array, each iterated deal is advanced and emitted, and a deal reaching
`Active` is spliced out at `indexOf(deal)` — which shifts later elements one
slot down under the running index.  The fuel argument is structural
bookkeeping; `pending.length` steps always suffice because each iteration
either increments the index or shortens the array.  Returns the remaining
pending ids, the updated deals, and the ids emitted as `dealStateChanged`. -/
def advanceLoopF : Nat → List Nat → Nat → List Deal → List Nat × List Deal × List Nat
  | 0, pending, _, deals => (pending, deals, [])
  | fuel + 1, pending, i, deals =>
    if h : i < pending.length then
      let did := pending.get ⟨i, h⟩
      let deals1 := advanceDeal deals did
      let rest :=
        if stateIn deals1 did = DealState.active then
          advanceLoopF fuel (pending.erase did) (i + 1) deals1
        else
          advanceLoopF fuel pending (i + 1) deals1
      (rest.1, rest.2.1, did :: rest.2.2)
    else (pending, deals, [])

/-- `mineTipset(numNewBlocks)`: build `numNewBlocks` blocks, every one with
`parents = [previousTipset.cids[0]]`, wrap them in a single new tipset at
`previousTipset.height + 1`, push it, then run the in-process-deal loop.
Returns the new state and the ids emitted as `dealStateChanged`. -/
def mineTipset (st : BState) (numNewBlocks : Nat) : BState × List Nat :=
  let previousTipset := latestTipset st
  let newBlocks : List Block :=
    List.replicate numNewBlocks { miner := 0, parents := [previousTipset.cids.headD 0] }
  let newTipset : Tipset :=
    { cids := [st.nextCid], blocks := newBlocks, height := previousTipset.height + 1 }
  let r := advanceLoopF st.inProcessDeals.length st.inProcessDeals 0 st.deals
  ({ st with
      tipsets := st.tipsets ++ [newTipset]
      inProcessDeals := r.1
      deals := r.2.1
      nextCid := st.nextCid + 1 }, r.2.2)

/-- The registration part of `startDeal`: create the deal in `Validating`
with `dealId = deals.length + 1` and a fresh proposal CID, push it onto
`deals` and `inProcessDeals`. -/
def registerDeal (st : BState) : BState × Nat :=
  let did := st.deals.length + 1
  let deal : Deal := { dealId := did, proposalCid := st.nextCid, state := DealState.validating }
  ({ st with
      deals := st.deals ++ [deal]
      inProcessDeals := st.inProcessDeals ++ [did]
      nextCid := st.nextCid + 1 }, did)

/-- The `while (deal.state != DealState.Active) this.mineTipset()` loop of
`startDeal`.  The JS loop is unbounded; the fuel is structural bookkeeping,
and the theorems below show the loop exits well inside it on every reachable
automine state. -/
def mineUntilActive : Nat → Nat → BState → BState
  | 0, _, st => st
  | fuel + 1, did, st =>
    if stateIn st.deals did = DealState.active then st
    else mineUntilActive fuel did (mineTipset st 1).1

/-- `startDeal(proposal)`: register the deal, then — when automining — mine
until that deal is `Active`.  Returns the new state and the deal id. -/
def startDeal (st : BState) : BState × Nat :=
  let r := registerDeal st
  if r.1.automining then
    (mineUntilActive (4 * r.1.inProcessDeals.length + 4) r.2 r.1, r.2)
  else r

/-- The states an instance can reach: the constructor, then any interleaving
of the startup callback, mining (explicit, interval tick, or batch),
`startDeal` and `stop`. -/
inductive Reachable : BState → Prop
  | construct (o : BOptions) : Reachable (construct o)
  | startup {st : BState} : Reachable st → Reachable (startupStep st)
  | mine {st : BState} (n : Nat) : Reachable st → Reachable (mineTipset st n).1
  | deal {st : BState} : Reachable st → Reachable (startDeal st).1
  | halt {st : BState} : Reachable st → Reachable (stop st).2

/-- Tipset heights are exactly the positions: `tipsets.map height = range`. -/
def TipsetInv (st : BState) : Prop :=
  st.tipsets ≠ [] ∧ st.tipsets.map Tipset.height = List.range st.tipsets.length

/-- Deal ids are exactly the positions shifted by one. -/
def DealIdInv (st : BState) : Prop :=
  st.deals.map Deal.dealId = List.range' 1 st.deals.length

/-- In automine mode every registered deal has been driven to `Active`, so
between calls the in-process set is empty. -/
def AutomineInv (st : BState) : Prop :=
  st.automining = true → st.inProcessDeals = []

/-- The readiness bookkeeping invariant: the flag mirrors whether the startup
callback has run, "ready" has been emitted exactly once iff it has, and the
flag is only set with the sidecar assigned. -/
def ReadyInv (st : BState) : Prop :=
  st.ready = st.startupRan
    ∧ st.readyEmits = (if st.startupRan then 1 else 0)
    ∧ (st.ready = true → st.ipfsServer.isSome = true)

end FilecoinChain

namespace SnapshotModel

theorem lookup_write (s : StorageCache) (k v q : Nat) :
    (s.write k v).lookup q = if q = k then some v else s.lookup q := by
  by_cases h : q = k <;> simp [StorageCache.write, StorageCache.lookup, h]

theorem lookup_read (s : StorageCache) (k q : Nat) :
    (s.read k).2.lookup q = s.lookup q := by
  unfold StorageCache.read
  cases hc : s.cache k with
  | some v => simp [hc]
  | none =>
    cases hb : s.backing k with
    | none => simp [hc, hb]
    | some v =>
      simp only [hc, hb]
      by_cases h : q = k
      · subst h
        simp [StorageCache.lookup, hc, hb]
      · simp [StorageCache.lookup, h]

theorem lookup_foldl_write (ws : List (Nat × Nat)) (s t : StorageCache)
    (h : ∀ q, s.lookup q = t.lookup q) (q : Nat) :
    (ws.foldl (fun st kv => st.write kv.1 kv.2) s).lookup q
      = (ws.foldl (fun st kv => st.write kv.1 kv.2) t).lookup q := by
  induction ws generalizing s t with
  | nil => simpa using h q
  | cons kv ws ih =>
    simp only [List.foldl_cons]
    exact ih _ _ (fun r => by rw [lookup_write, lookup_write, h r])

theorem applyOps_cons (o : Op) (ops : List Op) (s : Sys) :
    applyOps (o :: ops) s = applyOps ops (applyOp o s) := rfl

theorem applyOp_cps (o : Op) (s : Sys) : (applyOp o s).cps = s.cps := by
  cases o <;> rfl

theorem applyOps_cps (ops : List Op) (s : Sys) : (applyOps ops s).cps = s.cps := by
  induction ops generalizing s with
  | nil => rfl
  | cons o ops ih => rw [applyOps_cons, ih, applyOp_cps]

theorem applyOp_chain_ext (o : Op) (s : Sys) : ∃ t, (applyOp o s).chain = s.chain ++ t := by
  cases o with
  | submit ref success ret writes => exact ⟨_, rfl⟩
  | register eid => exact ⟨[], (List.append_nil _).symm⟩
  | read k => exact ⟨[], (List.append_nil _).symm⟩

theorem applyOps_chain_ext (ops : List Op) (s : Sys) :
    ∃ t, (applyOps ops s).chain = s.chain ++ t := by
  induction ops generalizing s with
  | nil => exact ⟨[], (List.append_nil _).symm⟩
  | cons o ops ih =>
    obtain ⟨t1, h1⟩ := applyOp_chain_ext o s
    obtain ⟨t2, h2⟩ := ih (applyOp o s)
    exact ⟨t1 ++ t2, by rw [applyOps_cons, h2, h1, List.append_assoc]⟩

theorem obsEq_applyOp (o : Op) {s t : Sys} (h : ObsEq s t) :
    ObsEq (applyOp o s) (applyOp o t) := by
  obtain ⟨hc, he, hr⟩ := h
  cases o with
  | submit ref success ret writes =>
    refine ⟨by simp [applyOp, hc], by simp [applyOp, he], ?_⟩
    intro q
    simpa [applyOp, readVal] using
      lookup_foldl_write writes s.store t.store (fun r => hr r) q
  | register eid =>
    exact ⟨by simp [applyOp, hc], by simp [applyOp, he], fun q => hr q⟩
  | read k =>
    refine ⟨by simp [applyOp, hc], by simp [applyOp, he], ?_⟩
    intro q
    show (s.store.read k).2.lookup q = (t.store.read k).2.lookup q
    rw [lookup_read, lookup_read]
    exact hr q

theorem obsEq_applyOps (ops : List Op) {s t : Sys} (h : ObsEq s t) :
    ObsEq (applyOps ops s) (applyOps ops t) := by
  induction ops generalizing s t with
  | nil => exact h
  | cons o ops ih => exact ih (obsEq_applyOp o h)

theorem getReceipt_congr {s t : Sys} (h : s.chain = t.chain) (ref : Nat) :
    getReceipt s ref = getReceipt t ref := by
  unfold getReceipt
  rw [h]

theorem markFrom_id (n : Nat) (c : Checkpoint) : (markFrom n c).id = c.id := by
  unfold markFrom
  split <;> rfl

theorem markFrom_reverted_of_le {n : Nat} {c : Checkpoint} (h : n ≤ c.id) :
    (markFrom n c).reverted = true := by
  unfold markFrom
  rw [if_pos h]

theorem markFrom_reverted_self (c : Checkpoint) : (markFrom c.id c).reverted = true :=
  markFrom_reverted_of_le (le_refl _)

theorem find?_map_markFrom (n : Nat) (l : List Checkpoint) (p : Checkpoint → Bool)
    (hp : ∀ c, p (markFrom n c) = p c) :
    (l.map (markFrom n)).find? p = (l.find? p).map (markFrom n) := by
  induction l with
  | nil => rfl
  | cons c l ih =>
    by_cases h : p c
    · rw [List.map_cons, List.find?_cons_of_pos _ (by rw [hp]; exact h),
        List.find?_cons_of_pos _ h]
      rfl
    · rw [List.map_cons,
        List.find?_cons_of_neg _ (by rw [hp]; exact h),
        List.find?_cons_of_neg _ h, ih]

theorem revert_once (s : Sys) (j : Int) (h : (revert j s).1 = true) :
    (revert j (revert j s).2).1 = false := by
  cases hf : s.cps.find? (fun c => ((c.id : Int) == j)) with
  | none =>
    exfalso
    unfold revert at h
    rw [hf] at h
    exact Bool.false_ne_true h
  | some c =>
    by_cases hr : c.reverted = true
    · exfalso
      unfold revert at h
      rw [hf] at h
      simp only [hr, if_true] at h
      exact Bool.false_ne_true h
    · have hs : revert j s = (true,
          { s with
              cps := s.cps.map (markFrom c.id)
              chain := s.chain.take c.chainLength
              store := StorageCache.restore c.handle
              entities := c.entities }) := by
        unfold revert
        simp only [hf]
        rw [if_neg hr]
      have hmap : (s.cps.map (markFrom c.id)).find? (fun c' => ((c'.id : Int) == j))
          = some (markFrom c.id c) := by
        rw [find?_map_markFrom c.id s.cps _ (fun d => by rw [markFrom_id])]
        rw [hf]
        rfl
      rw [hs]
      unfold revert
      simp [hmap, markFrom_reverted_self]

theorem revert_found_reverted {S : Sys} {j : Int} {c : Checkpoint}
    (hf : S.cps.find? (fun d => ((d.id : Int) == j)) = some c)
    (hrev : c.reverted = true) : revert j S = (false, S) := by
  unfold revert
  simp [hf, hrev]

/-- **C1** Revert round-trip: for every checkpoint returned by `snapshot` and
every sequence of operations, entity registrations and cache-populating reads
performed after it, `revert` succeeds and restores `getReceipt` results,
storage reads and dependent-entity states to their values at the moment the
snapshot was taken; and replaying any operation sequence after the revert is
observationally equal to replaying it from the snapshot state, so a re-derived
value equals the first derivation (no stale cache entry survives). -/
theorem C1_revert_round_trip (s0 : Sys) (ops ops2 : List Op) (ref k : Nat) :
    (revert ((snapshot s0).1 : Int) (applyOps ops (snapshot s0).2)).1 = true
    ∧ getReceipt (revert ((snapshot s0).1 : Int) (applyOps ops (snapshot s0).2)).2 ref
        = getReceipt (snapshot s0).2 ref
    ∧ readVal (revert ((snapshot s0).1 : Int) (applyOps ops (snapshot s0).2)).2 k
        = readVal (snapshot s0).2 k
    ∧ (revert ((snapshot s0).1 : Int) (applyOps ops (snapshot s0).2)).2.entities
        = (snapshot s0).2.entities
    ∧ ObsEq (applyOps ops2 (revert ((snapshot s0).1 : Int) (applyOps ops (snapshot s0).2)).2)
        (applyOps ops2 (snapshot s0).2) := by
  obtain ⟨tail, htail⟩ := applyOps_chain_ext ops (snapshot s0).2
  have hcps : (applyOps ops (snapshot s0).2).cps = (snapshot s0).2.cps :=
    applyOps_cps ops _
  have hfind : (applyOps ops (snapshot s0).2).cps.find?
      (fun c => ((c.id : Int) == ((snapshot s0).1 : Int)))
      = some ⟨s0.nextId, s0.chain.length, s0.store.snapshotHandle, s0.entities, false⟩ := by
    rw [hcps]
    exact List.find?_cons_of_pos _ (beq_self_eq_true ((s0.nextId : Int)))
  have hrev : revert ((snapshot s0).1 : Int) (applyOps ops (snapshot s0).2)
      = (true,
         { applyOps ops (snapshot s0).2 with
            cps := (applyOps ops (snapshot s0).2).cps.map (markFrom s0.nextId)
            chain := (applyOps ops (snapshot s0).2).chain.take s0.chain.length
            store := StorageCache.restore s0.store.snapshotHandle
            entities := s0.entities }) := by
    unfold revert
    simp only [hfind]
    rfl
  have hchain : (applyOps ops (snapshot s0).2).chain.take s0.chain.length
      = (snapshot s0).2.chain := by
    rw [htail]
    exact List.take_left s0.chain tail
  have hread : ∀ q, (StorageCache.restore s0.store.snapshotHandle).lookup q
      = (snapshot s0).2.store.lookup q := by
    intro q
    rfl
  have hobs : ObsEq (revert ((snapshot s0).1 : Int) (applyOps ops (snapshot s0).2)).2
      (snapshot s0).2 := by
    rw [hrev]
    exact ⟨hchain, rfl, hread⟩
  refine ⟨by rw [hrev], getReceipt_congr hobs.1 ref, hobs.2.2 k, hobs.2.1, ?_⟩
  exact obsEq_applyOps ops2 hobs

/-- **C2** Cascade invalidation and revertible-exactly-once: after
`s1 = snapshot()` then `s2 = snapshot()` (both still Active), `revert(s1)`
returns `true` and marks `s1` and every checkpoint with an id at least `s1`
(hence `s2`) Reverted; a subsequent `revert(s2)` returns `false`, a subsequent
`revert(s1)` returns `false`, and in general no id ever succeeds in `revert`
twice in a row. -/
theorem C2_cascade_revertible_once (s0 : Sys) :
    (revert ((snapshot s0).1 : Int) (snapshot (snapshot s0).2).2).1 = true
    ∧ (∀ c ∈ (revert ((snapshot s0).1 : Int) (snapshot (snapshot s0).2).2).2.cps,
        (snapshot s0).1 ≤ c.id → c.reverted = true)
    ∧ (∃ c ∈ (revert ((snapshot s0).1 : Int) (snapshot (snapshot s0).2).2).2.cps,
        c.id = (snapshot s0).1 ∧ c.reverted = true)
    ∧ (∃ c ∈ (revert ((snapshot s0).1 : Int) (snapshot (snapshot s0).2).2).2.cps,
        c.id = (snapshot (snapshot s0).2).1 ∧ c.reverted = true)
    ∧ (revert ((snapshot (snapshot s0).2).1 : Int)
        (revert ((snapshot s0).1 : Int) (snapshot (snapshot s0).2).2).2).1 = false
    ∧ (revert ((snapshot s0).1 : Int)
        (revert ((snapshot s0).1 : Int) (snapshot (snapshot s0).2).2).2).1 = false
    ∧ ∀ (s : Sys) (j : Int), (revert j s).1 = true → (revert j (revert j s).2).1 = false := by
  have hfind1 : ((snapshot (snapshot s0).2).2).cps.find?
      (fun c => ((c.id : Int) == ((snapshot s0).1 : Int)))
      = some ⟨s0.nextId, s0.chain.length, s0.store.snapshotHandle, s0.entities, false⟩ := by
    show (List.find? _
      (⟨s0.nextId + 1, s0.chain.length, s0.store.snapshotHandle, s0.entities, false⟩
        :: ⟨s0.nextId, s0.chain.length, s0.store.snapshotHandle, s0.entities, false⟩
        :: s0.cps)) = _
    rw [List.find?_cons_of_neg _ (by simp [snapshot]),
      List.find?_cons_of_pos _ (by simp [snapshot])]
  have hrev1 : revert ((snapshot s0).1 : Int) (snapshot (snapshot s0).2).2
      = (true,
         { (snapshot (snapshot s0).2).2 with
            cps := ((snapshot (snapshot s0).2).2).cps.map (markFrom s0.nextId)
            chain := ((snapshot (snapshot s0).2).2).chain.take s0.chain.length
            store := StorageCache.restore s0.store.snapshotHandle
            entities := s0.entities }) := by
    unfold revert
    simp only [hfind1]
    rfl
  have hmark2 : markFrom s0.nextId
      (⟨s0.nextId + 1, s0.chain.length, s0.store.snapshotHandle, s0.entities, false⟩ : Checkpoint)
      = ⟨s0.nextId + 1, s0.chain.length, s0.store.snapshotHandle, s0.entities, true⟩ := by
    unfold markFrom
    rw [if_pos (Nat.le_succ _)]
  have hmark1 : markFrom s0.nextId
      (⟨s0.nextId, s0.chain.length, s0.store.snapshotHandle, s0.entities, false⟩ : Checkpoint)
      = ⟨s0.nextId, s0.chain.length, s0.store.snapshotHandle, s0.entities, true⟩ := by
    unfold markFrom
    rw [if_pos (le_refl _)]
  have hcps3 : (revert ((snapshot s0).1 : Int) (snapshot (snapshot s0).2).2).2.cps
      = (⟨s0.nextId + 1, s0.chain.length, s0.store.snapshotHandle, s0.entities, true⟩ : Checkpoint)
        :: (⟨s0.nextId, s0.chain.length, s0.store.snapshotHandle, s0.entities, true⟩ : Checkpoint)
        :: s0.cps.map (markFrom s0.nextId) := by
    rw [hrev1]
    show ((⟨s0.nextId + 1, s0.chain.length, s0.store.snapshotHandle, s0.entities, false⟩
        : Checkpoint)
        :: (⟨s0.nextId, s0.chain.length, s0.store.snapshotHandle, s0.entities, false⟩
        : Checkpoint)
        :: s0.cps).map (markFrom s0.nextId) = _
    rw [List.map_cons, List.map_cons, hmark1, hmark2]
  refine ⟨by rw [hrev1], ?_, ?_, ?_, ?_, ?_, revert_once⟩
  · intro c hc hle
    rw [hcps3] at hc
    rcases List.mem_cons.1 hc with hc | hc
    · rw [hc]
    · rcases List.mem_cons.1 hc with hc | hc
      · rw [hc]
      · obtain ⟨c0, hc0, hceq⟩ := List.mem_map.1 hc
        have hle' : s0.nextId ≤ c0.id := by
          have h := hle
          rw [← hceq, markFrom_id] at h
          exact h
        rw [← hceq]
        exact markFrom_reverted_of_le hle'
  · refine ⟨⟨s0.nextId, s0.chain.length, s0.store.snapshotHandle, s0.entities, true⟩, ?_, rfl, rfl⟩
    rw [hcps3]
    exact List.mem_cons_of_mem _ (List.mem_cons_self _ _)
  · refine ⟨⟨s0.nextId + 1, s0.chain.length, s0.store.snapshotHandle, s0.entities, true⟩, ?_, rfl, rfl⟩
    rw [hcps3]
    exact List.mem_cons_self _ _
  · have hfind2 : (revert ((snapshot s0).1 : Int) (snapshot (snapshot s0).2).2).2.cps.find?
        (fun c => ((c.id : Int) == ((snapshot (snapshot s0).2).1 : Int)))
        = some ⟨s0.nextId + 1, s0.chain.length, s0.store.snapshotHandle, s0.entities, true⟩ := by
      rw [hcps3]
      exact List.find?_cons_of_pos _ (by simp [snapshot])
    rw [revert_found_reverted hfind2 rfl]
  · have hfind3 : (revert ((snapshot s0).1 : Int) (snapshot (snapshot s0).2).2).2.cps.find?
        (fun c => ((c.id : Int) == ((snapshot s0).1 : Int)))
        = some ⟨s0.nextId, s0.chain.length, s0.store.snapshotHandle, s0.entities, true⟩ := by
      rw [hcps3]
      rw [List.find?_cons_of_neg _ (by simp [snapshot]),
        List.find?_cons_of_pos _ (by simp [snapshot])]
    rw [revert_found_reverted hfind3 rfl]

/-- **C3** Input classification of revert identifiers: structurally malformed
identifiers (object, booleans, non-integral or non-finite numbers) are
rejected at the protocol boundary with the encoding-failure signal and never
reach `revert`; null/absent identifiers are rejected with the distinct
usage-failure signal; every integer value flows into `revert`, and a negative
or never-issued integer yields `false` — with the state unchanged — for any
number of repeated calls, never a thrown error. -/
theorem C3_identifier_classification (s : Sys) (n : Int) (j : Nat)
    (h : n < 0 ∨ ∀ c ∈ s.cps, (c.id : Int) ≠ n) :
    evmRevert .obj s = .error .encoding
    ∧ evmRevert .boolT s = .error .encoding
    ∧ evmRevert .boolF s = .error .encoding
    ∧ evmRevert .fracNum s = .error .encoding
    ∧ evmRevert .infPos s = .error .encoding
    ∧ evmRevert .infNeg s = .error .encoding
    ∧ evmRevert .nullV s = .error .usage
    ∧ evmRevert .undef s = .error .usage
    ∧ RpcErr.usage ≠ RpcErr.encoding
    ∧ (∀ m : Int, evmRevert (.intVal m) s = .ok (revert m s))
    ∧ revertRepeat j n s = (false, s) := by
  have hnone : s.cps.find? (fun c => ((c.id : Int) == n)) = none := by
    rw [List.find?_eq_none]
    intro c hc
    simp only [beq_iff_eq]
    rcases h with h | h
    · intro he
      have : (0 : Int) ≤ (c.id : Int) := Int.natCast_nonneg _
      omega
    · exact h c hc
  have hrev : revert n s = (false, s) := by
    unfold revert
    rw [hnone]
  have hrep : ∀ i : Nat, revertRepeat i n s = (false, s) := by
    intro i
    induction i with
    | zero => exact hrev
    | succ i ih =>
      show revert n (revertRepeat i n s).2 = (false, s)
      rw [ih]
      exact hrev
  exact ⟨rfl, rfl, rfl, rfl, rfl, rfl, rfl, rfl, by decide, fun m => rfl, hrep j⟩

/-- Witness for C3 at a concrete input: id 999 was never issued on the initial
system, six repeated `evm_revert(999)` calls all answer `false`. -/
theorem C3_identifier_classification_witness :
    (((999 : Int) < 0 ∨ ∀ c ∈ initSys.cps, (c.id : Int) ≠ 999))
    ∧ revertRepeat 5 999 initSys = (false, initSys) := by
  have h : ((999 : Int) < 0 ∨ ∀ c ∈ initSys.cps, (c.id : Int) ≠ 999) :=
    Or.inr (fun c hc => absurd hc (List.not_mem_nil c))
  exact ⟨h,
    (C3_identifier_classification initSys 999 5 h).2.2.2.2.2.2.2.2.2.2⟩

end SnapshotModel

namespace FilecoinChain

theorem find?_append_none {α : Type} (p : α → Bool) (l1 l2 : List α)
    (h : l1.find? p = none) : (l1 ++ l2).find? p = l2.find? p := by
  induction l1 with
  | nil => rfl
  | cons a l ih =>
    have ha : ¬ p a := (List.find?_eq_none.1 h) a (List.mem_cons_self _ _)
    rw [List.cons_append, List.find?_cons_of_neg _ ha]
    exact ih (List.find?_eq_none.2
      (fun x hx => (List.find?_eq_none.1 h) x (List.mem_cons_of_mem _ hx)))

theorem getD_last_concat {α : Type} (l : List α) (t d : α) :
    (l ++ [t]).getD ((l ++ [t]).length - 1) d = t := by
  have hlen : (l ++ [t]).length - 1 = l.length := by
    rw [List.length_append]
    simp
  rw [hlen, List.getD_eq_getElem?_getD, List.getElem?_concat_length]
  rfl

theorem range'_one_concat (n : Nat) : List.range' 1 (n + 1) = List.range' 1 n ++ [n + 1] := by
  have hgen : ∀ (m s : Nat), List.range' s (m + 1) = List.range' s m ++ [s + m] := by
    intro m
    induction m with
    | zero => intro s; simp [List.range']
    | succ m ih =>
      intro s
      have hs : s + 1 + m = s + (m + 1) := by omega
      rw [List.range'_succ, ih (s + 1), hs, List.range'_succ, List.cons_append]
  have h1 : (1 : Nat) + n = n + 1 := by omega
  rw [hgen n 1, h1]

theorem advanceLoopF_oob (fuel : Nat) (pending : List Nat) (i : Nat) (deals : List Deal)
    (h : ¬ i < pending.length) :
    advanceLoopF fuel pending i deals = (pending, deals, []) := by
  cases fuel with
  | zero => rfl
  | succ fuel => simp [advanceLoopF, h]

theorem advanceLoopF_singleton (fuel did : Nat) (deals : List Deal) :
    advanceLoopF (fuel + 1) [did] 0 deals
      = if stateIn (advanceDeal deals did) did = DealState.active
        then ([], advanceDeal deals did, [did])
        else ([did], advanceDeal deals did, [did]) := by
  by_cases ha : stateIn (advanceDeal deals did) did = DealState.active
  · simp [advanceLoopF, ha, List.erase_cons_head, advanceLoopF_oob]
  · simp [advanceLoopF, ha, advanceLoopF_oob]

theorem mineUntilActive_step (fuel did : Nat) (st : BState)
    (h : ¬ stateIn st.deals did = DealState.active) :
    mineUntilActive (fuel + 1) did st = mineUntilActive fuel did (mineTipset st 1).1 := by
  show (if stateIn st.deals did = DealState.active then st
        else mineUntilActive fuel did (mineTipset st 1).1) = _
  rw [if_neg h]

theorem mineUntilActive_done (fuel did : Nat) (st : BState)
    (h : stateIn st.deals did = DealState.active) :
    mineUntilActive (fuel + 1) did st = st := by
  show (if stateIn st.deals did = DealState.active then st
        else mineUntilActive fuel did (mineTipset st 1).1) = st
  rw [if_pos h]

theorem advanceDeal_map_id (deals : List Deal) (did : Nat) :
    (advanceDeal deals did).map Deal.dealId = deals.map Deal.dealId := by
  unfold advanceDeal
  rw [List.map_map]
  exact List.map_congr_left (fun d hd => by by_cases h : d.dealId = did <;> simp [h])

theorem advanceLoopF_map_id (fuel : Nat) (pending : List Nat) (i : Nat) (deals : List Deal) :
    (advanceLoopF fuel pending i deals).2.1.map Deal.dealId = deals.map Deal.dealId := by
  induction fuel generalizing pending i deals with
  | zero => rfl
  | succ fuel ih =>
    by_cases h : i < pending.length
    · simp only [advanceLoopF, dif_pos h]
      by_cases ha : stateIn (advanceDeal deals (pending.get ⟨i, h⟩)) (pending.get ⟨i, h⟩)
          = DealState.active
      · simp only [if_pos ha]
        rw [ih, advanceDeal_map_id]
      · simp only [if_neg ha]
        rw [ih, advanceDeal_map_id]
    · simp only [advanceLoopF, dif_neg h]

theorem advanceLoopF_one (did : Nat) (deals : List Deal) :
    advanceLoopF 1 [did] 0 deals
      = if stateIn (advanceDeal deals did) did = DealState.active
        then ([], advanceDeal deals did, [did])
        else ([did], advanceDeal deals did, [did]) :=
  advanceLoopF_singleton 0 did deals

theorem getD_concat_length {α : Type} (l : List α) (t d : α) :
    (l ++ [t]).getD l.length d = t := by
  rw [List.getD_eq_getElem?_getD, List.getElem?_concat_length]
  rfl

theorem mineTipset_tipsets (s : BState) (n : Nat) :
    (mineTipset s n).1.tipsets
      = s.tipsets ++ [⟨[s.nextCid],
          List.replicate n ⟨0, [(latestTipset s).cids.headD 0]⟩,
          (latestTipset s).height + 1⟩] := rfl

theorem mineTipset_empty (s : BState) (n : Nat) (hP : s.inProcessDeals = []) :
    (mineTipset s n).1.inProcessDeals = [] ∧ (mineTipset s n).1.deals = s.deals := by
  unfold mineTipset
  simp [hP, advanceLoopF]

theorem tipsetInv_latest {st : BState} (h : TipsetInv st) :
    (latestTipset st).height = st.tipsets.length - 1 := by
  obtain ⟨hne, hmap⟩ := h
  have hlen : 0 < st.tipsets.length := List.length_pos.2 hne
  have h1 : (st.tipsets.map Tipset.height)[st.tipsets.length - 1]?
      = some (st.tipsets.length - 1) := by
    rw [hmap, List.getElem?_range (by omega)]
  rw [List.getElem?_map] at h1
  cases heq : st.tipsets[st.tipsets.length - 1]? with
  | none => rw [heq] at h1; exact absurd h1 (by simp)
  | some t =>
    rw [heq] at h1
    have hth : t.height = st.tipsets.length - 1 := by
      simpa using h1
    have : latestTipset st = t := by
      unfold latestTipset
      rw [List.getD_eq_getElem?_getD, heq]
      rfl
    rw [this, hth]

theorem startDeal_automine (st : BState) (hA : st.automining = true)
    (hP : st.inProcessDeals = []) (hD : DealIdInv st) :
    startDeal st
      = ({ st with
            tipsets := st.tipsets
              ++ [⟨[st.nextCid + 1], [⟨0, [(latestTipset st).cids.headD 0]⟩],
                   (latestTipset st).height + 1⟩]
              ++ [⟨[st.nextCid + 1 + 1], [⟨0, [st.nextCid + 1]⟩],
                   (latestTipset st).height + 1 + 1⟩]
            deals := st.deals ++ [⟨st.deals.length + 1, st.nextCid, DealState.active⟩]
            inProcessDeals := []
            nextCid := st.nextCid + 1 + 1 + 1 },
         st.deals.length + 1) := by
  have hnotin : ∀ d ∈ st.deals, d.dealId ≠ st.deals.length + 1 := by
    intro d hd
    have hm : d.dealId ∈ st.deals.map Deal.dealId := List.mem_map_of_mem _ hd
    rw [hD, List.mem_range'_1] at hm
    omega
  have hfind0 : st.deals.find? (fun d => d.dealId == st.deals.length + 1) = none := by
    rw [List.find?_eq_none]
    intro d hd
    simp [hnotin d hd]
  have hskip : st.deals.map (fun d =>
      if d.dealId == st.deals.length + 1
      then { d with state := d.state.advanceState } else d) = st.deals := by
    conv_rhs => rw [← List.map_id st.deals]
    exact List.map_congr_left (fun d hd => by simp [hnotin d hd])
  have hadv : ∀ (cid : Nat) (s : DealState),
      advanceDeal (st.deals ++ [⟨st.deals.length + 1, cid, s⟩]) (st.deals.length + 1)
        = st.deals ++ [⟨st.deals.length + 1, cid, s.advanceState⟩] := by
    intro cid s
    unfold advanceDeal
    rw [List.map_append, hskip]
    simp
  have hst : ∀ (cid : Nat) (s : DealState),
      stateIn (st.deals ++ [⟨st.deals.length + 1, cid, s⟩]) (st.deals.length + 1) = s := by
    intro cid s
    unfold stateIn
    rw [find?_append_none _ _ _ hfind0, List.find?_cons_of_pos _ (by simp)]
  have hreg : registerDeal st
      = ({ st with
            deals := st.deals ++ [⟨st.deals.length + 1, st.nextCid, DealState.validating⟩]
            inProcessDeals := [st.deals.length + 1]
            nextCid := st.nextCid + 1 },
         st.deals.length + 1) := by
    unfold registerDeal
    rw [hP]
    rfl
  have hm1 : mineTipset { st with
        deals := st.deals ++ [⟨st.deals.length + 1, st.nextCid, DealState.validating⟩]
        inProcessDeals := [st.deals.length + 1]
        nextCid := st.nextCid + 1 } 1
      = ({ st with
            tipsets := st.tipsets ++ [⟨[st.nextCid + 1],
              [⟨0, [(latestTipset st).cids.headD 0]⟩], (latestTipset st).height + 1⟩]
            deals := st.deals ++ [⟨st.deals.length + 1, st.nextCid, DealState.staged⟩]
            inProcessDeals := [st.deals.length + 1]
            nextCid := st.nextCid + 1 + 1 },
         [st.deals.length + 1]) := by
    unfold mineTipset
    simp [latestTipset, advanceLoopF_one, hadv, hst, DealState.advanceState]
  have hm2 : mineTipset { st with
        tipsets := st.tipsets ++ [⟨[st.nextCid + 1],
          [⟨0, [(latestTipset st).cids.headD 0]⟩], (latestTipset st).height + 1⟩]
        deals := st.deals ++ [⟨st.deals.length + 1, st.nextCid, DealState.staged⟩]
        inProcessDeals := [st.deals.length + 1]
        nextCid := st.nextCid + 1 + 1 } 1
      = ({ st with
            tipsets := st.tipsets
              ++ [⟨[st.nextCid + 1], [⟨0, [(latestTipset st).cids.headD 0]⟩],
                   (latestTipset st).height + 1⟩]
              ++ [⟨[st.nextCid + 1 + 1], [⟨0, [st.nextCid + 1]⟩],
                   (latestTipset st).height + 1 + 1⟩]
            deals := st.deals ++ [⟨st.deals.length + 1, st.nextCid, DealState.active⟩]
            inProcessDeals := []
            nextCid := st.nextCid + 1 + 1 + 1 },
         [st.deals.length + 1]) := by
    unfold mineTipset
    simp [latestTipset, advanceLoopF_one, hadv, hst, DealState.advanceState,
      getD_concat_length, getD_last_concat]
  have hcond1 : ¬ stateIn (st.deals
      ++ [⟨st.deals.length + 1, st.nextCid, DealState.validating⟩])
      (st.deals.length + 1) = DealState.active := by
    rw [hst]
    decide
  have hcond2 : ¬ stateIn (st.deals
      ++ [⟨st.deals.length + 1, st.nextCid, DealState.staged⟩])
      (st.deals.length + 1) = DealState.active := by
    rw [hst]
    decide
  have hcond3 : stateIn (st.deals
      ++ [⟨st.deals.length + 1, st.nextCid, DealState.active⟩])
      (st.deals.length + 1) = DealState.active := hst _ _
  show (if (registerDeal st).1.automining = true
      then (mineUntilActive (4 * (registerDeal st).1.inProcessDeals.length + 4)
              (registerDeal st).2 (registerDeal st).1,
            (registerDeal st).2)
      else registerDeal st) = _
  rw [hreg]
  show (if st.automining = true
      then (mineUntilActive 8 (st.deals.length + 1)
              { st with
                  deals := st.deals
                    ++ [⟨st.deals.length + 1, st.nextCid, DealState.validating⟩]
                  inProcessDeals := [st.deals.length + 1]
                  nextCid := st.nextCid + 1 },
            st.deals.length + 1)
      else ({ st with
                deals := st.deals
                  ++ [⟨st.deals.length + 1, st.nextCid, DealState.validating⟩]
                inProcessDeals := [st.deals.length + 1]
                nextCid := st.nextCid + 1 },
              st.deals.length + 1)) = _
  rw [if_pos hA]
  refine Prod.ext ?_ rfl
  show mineUntilActive (7 + 1) (st.deals.length + 1)
      { st with
          deals := st.deals ++ [⟨st.deals.length + 1, st.nextCid, DealState.validating⟩]
          inProcessDeals := [st.deals.length + 1]
          nextCid := st.nextCid + 1 } = _
  rw [mineUntilActive_step 7 _ _ hcond1, hm1]
  show mineUntilActive (6 + 1) (st.deals.length + 1)
      { st with
          tipsets := st.tipsets ++ [⟨[st.nextCid + 1],
            [⟨0, [(latestTipset st).cids.headD 0]⟩], (latestTipset st).height + 1⟩]
          deals := st.deals ++ [⟨st.deals.length + 1, st.nextCid, DealState.staged⟩]
          inProcessDeals := [st.deals.length + 1]
          nextCid := st.nextCid + 1 + 1 } = _
  rw [mineUntilActive_step 6 _ _ hcond2, hm2]
  show mineUntilActive (5 + 1) (st.deals.length + 1)
      { st with
          tipsets := st.tipsets
            ++ [⟨[st.nextCid + 1], [⟨0, [(latestTipset st).cids.headD 0]⟩],
                 (latestTipset st).height + 1⟩]
            ++ [⟨[st.nextCid + 1 + 1], [⟨0, [st.nextCid + 1]⟩],
                 (latestTipset st).height + 1 + 1⟩]
          deals := st.deals ++ [⟨st.deals.length + 1, st.nextCid, DealState.active⟩]
          inProcessDeals := []
          nextCid := st.nextCid + 1 + 1 + 1 } = _
  rw [mineUntilActive_done 5 _ _ hcond3]

theorem reachable_inv {st : BState} (h : Reachable st) :
    TipsetInv st ∧ DealIdInv st ∧ AutomineInv st ∧ ReadyInv st := by
  induction h with
  | construct o =>
    refine ⟨⟨by simp [construct], rfl⟩, rfl, fun _ => rfl, rfl, rfl, fun hr => ?_⟩
    exact absurd hr (by simp [construct])
  | @startup s hprev ih =>
    obtain ⟨hT, hD, hA, hR1, hR2, hR3⟩ := ih
    by_cases hran : s.startupRan
    · have he : startupStep s = s := by
        simp [startupStep, hran]
      rw [he]
      exact ⟨hT, hD, hA, hR1, hR2, hR3⟩
    · have he : startupStep s
          = { s with
                ipfsServer := some true
                miningTimeout := (!s.automining && s.blockTime ≠ 0)
                ready := true
                startupRan := true
                readyEmits := s.readyEmits + 1 } := by
        simp [startupStep, hran]
      rw [he]
      refine ⟨hT, hD, hA, rfl, ?_, fun _ => rfl⟩
      show s.readyEmits + 1 = 1
      simp [hR2, hran]
  | @mine s n hprev ih =>
    obtain ⟨hT, hD, hA, hR1, hR2, hR3⟩ := ih
    have hlat : (latestTipset s).height = s.tipsets.length - 1 := tipsetInv_latest hT
    have hl1 : 0 < s.tipsets.length := List.length_pos.2 hT.1
    have hstep : (latestTipset s).height + 1 = s.tipsets.length := by omega
    refine ⟨⟨?_, ?_⟩, ?_, ?_, hR1, hR2, hR3⟩
    · rw [mineTipset_tipsets]
      simp
    · rw [mineTipset_tipsets, List.map_append, hT.2, List.length_append]
      simp only [List.map_cons, List.map_nil, List.length_cons, List.length_nil, hstep]
      rw [List.range_succ]
    · show (mineTipset s n).1.deals.map Deal.dealId
        = List.range' 1 (mineTipset s n).1.deals.length
      have hmap : (mineTipset s n).1.deals.map Deal.dealId = s.deals.map Deal.dealId := by
        show (advanceLoopF s.inProcessDeals.length s.inProcessDeals 0 s.deals).2.1.map
            Deal.dealId = s.deals.map Deal.dealId
        exact advanceLoopF_map_id _ _ _ _
      have hlen : (mineTipset s n).1.deals.length = s.deals.length := by
        rw [← List.length_map (mineTipset s n).1.deals Deal.dealId, hmap, List.length_map]
      rw [hmap, hlen, hD]
    · intro hAm
      exact (mineTipset_empty s n (hA hAm)).1
  | @deal s hprev ih =>
    obtain ⟨hT, hD, hA, hR1, hR2, hR3⟩ := ih
    have hlat : (latestTipset s).height = s.tipsets.length - 1 := tipsetInv_latest hT
    have hl1 : 0 < s.tipsets.length := List.length_pos.2 hT.1
    by_cases hAm : s.automining = true
    · have hrec := startDeal_automine s hAm (hA hAm) hD
      rw [show (startDeal s).1 = _ from congrArg Prod.fst hrec]
      have hstep : (latestTipset s).height + 1 = s.tipsets.length := by omega
      refine ⟨⟨?_, ?_⟩, ?_, fun _ => rfl, hR1, hR2, hR3⟩
      · simp
      · show ((s.tipsets ++ [_]) ++ [_]).map Tipset.height
          = List.range ((s.tipsets ++ [_]) ++ [_]).length
        rw [List.map_append, List.map_append, hT.2, List.length_append, List.length_append]
        simp only [List.map_cons, List.map_nil, List.length_cons, List.length_nil, hstep]
        rw [show s.tipsets.length + 1 + 1 = (s.tipsets.length + 1) + 1 from rfl,
          List.range_succ, List.range_succ]
      · show (s.deals ++ [(⟨s.deals.length + 1, s.nextCid, DealState.active⟩ : Deal)]).map
            Deal.dealId
          = List.range' 1 (s.deals ++ [(⟨s.deals.length + 1, s.nextCid,
              DealState.active⟩ : Deal)]).length
        rw [List.map_append, hD, List.length_append]
        simp only [List.map_cons, List.map_nil, List.length_cons, List.length_nil]
        rw [range'_one_concat]
    · have he : startDeal s = registerDeal s := by
        show (if (registerDeal s).1.automining = true
            then (mineUntilActive (4 * (registerDeal s).1.inProcessDeals.length + 4)
                    (registerDeal s).2 (registerDeal s).1,
                  (registerDeal s).2)
            else registerDeal s) = registerDeal s
        exact if_neg hAm
      rw [he]
      refine ⟨hT, ?_, fun hc => absurd hc hAm, hR1, hR2, hR3⟩
      show (s.deals ++ [(⟨s.deals.length + 1, s.nextCid, DealState.validating⟩ : Deal)]).map
          Deal.dealId
        = List.range' 1 (s.deals ++ [(⟨s.deals.length + 1, s.nextCid,
            DealState.validating⟩ : Deal)]).length
      rw [List.map_append, hD, List.length_append]
      simp only [List.map_cons, List.map_nil, List.length_cons, List.length_nil]
      rw [range'_one_concat]
  | @halt s hprev ih =>
    obtain ⟨hT, hD, hA, hR1, hR2, hR3⟩ := ih
    cases hse : s.ipfsServer with
    | none =>
      have he : (stop s).2 = { s with miningTimeout := false } := by
        simp [stop, hse]
      rw [he]
      exact ⟨hT, hD, hA, hR1, hR2, fun hr => absurd (hR3 hr) (by rw [hse]; simp)⟩
    | some b =>
      have he : (stop s).2 = { s with miningTimeout := false, ipfsServer := some false } := by
        simp [stop, hse]
      rw [he]
      exact ⟨hT, hD, hA, hR1, hR2, fun _ => rfl⟩

theorem deals_fresh_not_mem (base : List Deal)
    (hD : base.map Deal.dealId = List.range' 1 base.length) :
    base.find? (fun d => d.dealId == base.length + 1) = none := by
  rw [List.find?_eq_none]
  intro d hd
  have hm : d.dealId ∈ base.map Deal.dealId := List.mem_map_of_mem _ hd
  rw [hD, List.mem_range'_1] at hm
  simp only [beq_iff_eq]
  omega

theorem stateIn_append_fresh (base : List Deal) (cid : Nat) (s : DealState)
    (hD : base.map Deal.dealId = List.range' 1 base.length) :
    stateIn (base ++ [⟨base.length + 1, cid, s⟩]) (base.length + 1) = s := by
  unfold stateIn
  rw [find?_append_none _ _ _ (deals_fresh_not_mem base hD),
    List.find?_cons_of_pos _ (by simp)]

/-- **C4** Per-block entity advancement.  The claim says that every deal
pending at the start of a `mineTipset` call advances exactly one step during
that call, with a `dealStateChanged` event.  The code iterates
`inProcessDeals` with a live-array iterator and splices completed deals out
mid-iteration, so when an earlier deal reaches `Active` the next pending deal
is skipped.  Failing run: interval mode, two deals registered, two blocks
mined — during the second call deal 2 is pending but gets no event and its
state does not advance (it stays `staged` instead of reaching `active`),
while deal 1 completes and is removed. -/
theorem C4_mineTipset_skips_pending_deal :
    2 ∈ ((mineTipset ((startDeal ((startDeal
          (construct ⟨some true, some 10, some 5001⟩)).1)).1) 1).1).inProcessDeals
    ∧ stateIn ((mineTipset ((startDeal ((startDeal
          (construct ⟨some true, some 10, some 5001⟩)).1)).1) 1).1).deals 2
        = DealState.staged
    ∧ (mineTipset ((mineTipset ((startDeal ((startDeal
          (construct ⟨some true, some 10, some 5001⟩)).1)).1) 1).1) 1).2 = [1]
    ∧ stateIn ((mineTipset ((mineTipset ((startDeal ((startDeal
          (construct ⟨some true, some 10, some 5001⟩)).1)).1) 1).1) 1).1).deals 2
        = DealState.staged
    ∧ 2 ∈ ((mineTipset ((mineTipset ((startDeal ((startDeal
          (construct ⟨some true, some 10, some 5001⟩)).1)).1) 1).1) 1).1).inProcessDeals
    ∧ stateIn ((mineTipset ((mineTipset ((startDeal ((startDeal
          (construct ⟨some true, some 10, some 5001⟩)).1)).1) 1).1) 1).1).deals 1
        = DealState.active := by
  decide

/-- **C5** Block production shape: `mineTipset(n)` with `n ≥ 1` builds
exactly `n` new blocks, each with parents equal to the single first CID of
the previous latest tipset, appended as one new tipset whose height is the
previous height plus one, and that tipset becomes the latest — no fork
selection. -/
theorem C5_mineTipset_shape (st : BState) (n : Nat) (hn : 1 ≤ n) :
    ∃ t : Tipset,
      (mineTipset st n).1.tipsets = st.tipsets ++ [t]
      ∧ t.blocks.length = n
      ∧ (∀ b ∈ t.blocks, b.parents = [(latestTipset st).cids.headD 0])
      ∧ t.height = (latestTipset st).height + 1
      ∧ latestTipset (mineTipset st n).1 = t := by
  refine ⟨⟨[st.nextCid], List.replicate n ⟨0, [(latestTipset st).cids.headD 0]⟩,
      (latestTipset st).height + 1⟩, rfl, by simp, ?_, rfl, ?_⟩
  · intro b hb
    rw [List.eq_of_mem_replicate hb]
  · unfold latestTipset
    rw [mineTipset_tipsets st n, getD_last_concat]
    rfl

/-- Witness for C5 on a freshly constructed chain with a two-block batch. -/
theorem C5_mineTipset_shape_witness :
    1 ≤ 2 ∧ ∃ t : Tipset,
      (mineTipset (construct ⟨none, none, none⟩) 2).1.tipsets
          = (construct ⟨none, none, none⟩).tipsets ++ [t]
      ∧ t.blocks.length = 2
      ∧ (∀ b ∈ t.blocks, b.parents
          = [(latestTipset (construct ⟨none, none, none⟩)).cids.headD 0])
      ∧ t.height = (latestTipset (construct ⟨none, none, none⟩)).height + 1
      ∧ latestTipset (mineTipset (construct ⟨none, none, none⟩) 2).1 = t :=
  ⟨by decide, C5_mineTipset_shape (construct ⟨none, none, none⟩) 2 (by decide)⟩

/-- **C6** Automine deal completion: on every reachable state with automining
on, `startDeal` terminates with the new deal `Active`, the number of blocks
produced equals the number of state-machine steps from the deal's initial
state (`Validating`) to `Active`, the deal leaves the pending set, and no
previously registered deal is touched (so none advances more than once per
block). -/
theorem C6_automine_deal_completion (st : BState) (h : Reachable st)
    (hA : st.automining = true) :
    (startDeal st).1.tipsets.length
        = st.tipsets.length + DealState.stepsToActive DealState.validating
    ∧ stateIn (startDeal st).1.deals (startDeal st).2 = DealState.active
    ∧ (startDeal st).1.inProcessDeals = []
    ∧ (startDeal st).1.deals.length = st.deals.length + 1
    ∧ (startDeal st).1.deals.take st.deals.length = st.deals := by
  obtain ⟨hT, hD, hAI, hR⟩ := reachable_inv h
  have hrec := startDeal_automine st hA (hAI hA) hD
  have h1 := congrArg Prod.fst hrec
  have h2 := congrArg Prod.snd hrec
  simp only at h1 h2
  rw [h1, h2]
  refine ⟨?_, ?_, rfl, ?_, ?_⟩
  · show ((st.tipsets ++ [_]) ++ [_]).length
      = st.tipsets.length + DealState.stepsToActive DealState.validating
    rw [List.length_append, List.length_append]
    rfl
  · exact stateIn_append_fresh st.deals st.nextCid DealState.active hD
  · rw [List.length_append]
    rfl
  · exact List.take_left st.deals _

/-- Witness for C6 on a freshly constructed automining chain. -/
theorem C6_automine_deal_completion_witness :
    (construct ⟨none, none, none⟩).automining = true
    ∧ (startDeal (construct ⟨none, none, none⟩)).1.tipsets.length
        = (construct ⟨none, none, none⟩).tipsets.length
          + DealState.stepsToActive DealState.validating
    ∧ stateIn (startDeal (construct ⟨none, none, none⟩)).1.deals
        (startDeal (construct ⟨none, none, none⟩)).2 = DealState.active
    ∧ (startDeal (construct ⟨none, none, none⟩)).1.inProcessDeals = [] := by
  have h := C6_automine_deal_completion (construct ⟨none, none, none⟩)
    (Reachable.construct ⟨none, none, none⟩) (by decide)
  exact ⟨by decide, h.1, h.2.1, h.2.2.1⟩

/-- **C7** Shutdown safety.  The claim says `stop()` is safe in every state,
including one whose asynchronous startup never completed.  In the code
`clearInterval` does run first, but `this.ipfsServer.stop()` dereferences an
unassigned `ipfsServer` whenever the startup callback has not run, so a stop
before startup faults with a TypeError; after startup it shuts down cleanly,
and in every case the interval timer ends cleared. -/
theorem C7_stop_before_startup_faults (o : BOptions) (st : BState) :
    (stop (construct o)).1 = StopResult.typeError
    ∧ (stop (construct o)).2.miningTimeout = false
    ∧ (stop (startupStep (construct o))).1 = StopResult.ok
    ∧ (stop st).2.miningTimeout = false := by
  refine ⟨rfl, rfl, rfl, ?_⟩
  cases hse : st.ipfsServer <;> simp [stop, hse]

/-- **C8** Readiness one-shot: the flag is false at construction with no
"ready" emitted; on every reachable state at most one "ready" has been
emitted, and the flag being set implies exactly one emission with the sidecar
assigned; the startup transition is a no-op once run, and when it runs it
sets the flag, emits exactly one more "ready", assigns the sidecar and arms
the interval timer when configured; `waitForReady` resolves immediately iff
the flag is already set and otherwise subscribes. -/
theorem C8_readiness_one_shot (o : BOptions) (st : BState) (h : Reachable st) :
    (construct o).ready = false
    ∧ (construct o).readyEmits = 0
    ∧ st.readyEmits ≤ 1
    ∧ (st.ready = true → st.readyEmits = 1 ∧ st.ipfsServer.isSome = true)
    ∧ (st.startupRan = true → startupStep st = st)
    ∧ (st.startupRan = false →
        (startupStep st).ready = true
        ∧ (startupStep st).readyEmits = st.readyEmits + 1
        ∧ (startupStep st).ipfsServer = some true
        ∧ (st.automining = false ∧ st.blockTime ≠ 0
            → (startupStep st).miningTimeout = true))
    ∧ (st.ready = true → waitForReady st = WaitBehavior.immediate)
    ∧ (st.ready = false → waitForReady st = WaitBehavior.subscribed) := by
  obtain ⟨hT, hD, hAI, hR1, hR2, hR3⟩ := reachable_inv h
  refine ⟨rfl, rfl, ?_, ?_, ?_, ?_, ?_, ?_⟩
  · rw [hR2]
    split <;> omega
  · intro hr
    refine ⟨?_, hR3 hr⟩
    rw [hR2, if_pos (hR1 ▸ hr)]
  · intro hran
    simp [startupStep, hran]
  · intro hran
    refine ⟨by simp [startupStep, hran], by simp [startupStep, hran],
      by simp [startupStep, hran], ?_⟩
    intro hcfg
    simp [startupStep, hran, hcfg.1, hcfg.2]
  · intro hr
    simp [waitForReady, hr]
  · intro hr
    simp [waitForReady, hr]

/-- Witness for C8: a constructed instance after its startup callback. -/
theorem C8_readiness_one_shot_witness :
    (construct ⟨none, none, none⟩).ready = false
    ∧ (startupStep (construct ⟨none, none, none⟩)).readyEmits ≤ 1
    ∧ waitForReady (startupStep (construct ⟨none, none, none⟩))
        = WaitBehavior.immediate := by
  have h := C8_readiness_one_shot ⟨none, none, none⟩
    (startupStep (construct ⟨none, none, none⟩))
    (Reachable.startup (Reachable.construct ⟨none, none, none⟩))
  exact ⟨h.1, h.2.2.1, h.2.2.2.2.2.2.1 (by decide)⟩

/-- **C9** Interval mode silently overrides automine: whenever the resolved
`blockTime` option is positive, the constructed instance has
`automining = false`, even when `options.automining` was explicitly true. -/
theorem C9_blocktime_overrides_automining (o : BOptions)
    (h : 0 < o.blockTime.getD 0) :
    (construct o).automining = false := by
  show (if 0 < o.blockTime.getD 0 then false else o.automining.getD true) = false
  rw [if_pos h]

/-- Witness for C9: `automining` explicitly true, `blockTime = 7`. -/
theorem C9_blocktime_overrides_automining_witness :
    0 < ((⟨some true, some 7, none⟩ : BOptions)).blockTime.getD 0
    ∧ (construct ⟨some true, some 7, none⟩).automining = false :=
  ⟨by decide, C9_blocktime_overrides_automining ⟨some true, some 7, none⟩ (by decide)⟩

/-- **C10** Chain-height invariant: in every reachable state the tipsets
array is non-empty with `tipsets[i].height = i` (genesis at height 0), the
latest tipset's height is `tipsets.length - 1`, and every `mineTipset` call
appends exactly one tipset, leaving all existing ones in place. -/
theorem C10_chain_height_invariant (st : BState) (h : Reachable st) (n : Nat) :
    st.tipsets ≠ []
    ∧ (∀ i (hi : i < st.tipsets.length), (st.tipsets.get ⟨i, hi⟩).height = i)
    ∧ (latestTipset st).height = st.tipsets.length - 1
    ∧ ∃ t : Tipset, (mineTipset st n).1.tipsets = st.tipsets ++ [t] := by
  obtain ⟨hT, hD, hAI, hR⟩ := reachable_inv h
  refine ⟨hT.1, ?_, tipsetInv_latest hT, ⟨_, mineTipset_tipsets st n⟩⟩
  intro i hi
  have h1 : (st.tipsets.map Tipset.height)[i]? = some i := by
    rw [hT.2, List.getElem?_range hi]
  rw [List.getElem?_map, List.getElem?_eq_getElem hi] at h1
  simpa [List.get_eq_getElem] using h1

/-- Witness for C10 on a freshly constructed chain. -/
theorem C10_chain_height_invariant_witness :
    (construct ⟨none, none, none⟩).tipsets ≠ []
    ∧ (latestTipset (construct ⟨none, none, none⟩)).height
        = (construct ⟨none, none, none⟩).tipsets.length - 1
    ∧ ∃ t : Tipset, (mineTipset (construct ⟨none, none, none⟩) 1).1.tipsets
        = (construct ⟨none, none, none⟩).tipsets ++ [t] := by
  have h := C10_chain_height_invariant (construct ⟨none, none, none⟩)
    (Reachable.construct ⟨none, none, none⟩) 1
  exact ⟨h.1, h.2.2.1, h.2.2.2⟩

end FilecoinChain
